import Mathlib

/-!
Shallow embedding of the gemini-crawler repository (src/main.rs, src/gemini_web.rs)
and proofs about its specification claims.

Strings are Lean `String`s; the string manipulation helpers used by the Rust code
(`str::lines`, `trim`, `split_once`, `replace`, `strip`) are modelled by structural
recursions over the underlying character lists so that all definitions evaluate
inside the kernel.
-/

/-- Whitespace test matching the characters relevant to the crawler's inputs. -/
def isWs (c : Char) : Bool :=
  c = ' ' || c = '\t' || c = '\n' || c = '\r'

/-- Drop characters satisfying `p` from the front of a list. -/
def dropWhileL (p : Char → Bool) : List Char → List Char
  | [] => []
  | c :: cs => if p c then dropWhileL p cs else c :: cs

/-- Model of Rust `str::trim` (ASCII whitespace). -/
def strTrim (s : String) : String :=
  ⟨(dropWhileL isWs ((dropWhileL isWs s.data.reverse).reverse))⟩

/-- Split a character list at the first occurrence of `c`;
`none` when `c` does not occur.  Models Rust `str::split_once(c)`. -/
def splitOnceCh (c : Char) : List Char → Option (List Char × List Char)
  | [] => none
  | x :: xs =>
    if x = c then some ([], xs)
    else (splitOnceCh c xs).map (fun p => (x :: p.1, p.2))

/-- Model of Rust `str::split_once(char)` on `String`. -/
def strSplitOnce (s : String) (c : Char) : Option (String × String) :=
  (splitOnceCh c s.data).map (fun p => (⟨p.1⟩, ⟨p.2⟩))

/-- Split a character list at the first occurrence of the two-character
separator `a b`.  Models Rust `str::split_once("\r\n")`. -/
def splitOnceSub2 (a b : Char) : List Char → Option (List Char × List Char)
  | [] => none
  | x :: xs =>
    match xs with
    | y :: ys =>
      if x = a ∧ y = b then some ([], ys)
      else (splitOnceSub2 a b xs).map (fun p => (x :: p.1, p.2))
    | [] => none

/-- Split a character list at the first occurrence of `"://"`. -/
def splitOnceScheme : List Char → Option (List Char × List Char)
  | [] => none
  | x :: xs =>
    match xs with
    | y :: z :: ys =>
      if x = ':' ∧ y = '/' ∧ z = '/' then some ([], ys)
      else (splitOnceScheme xs).map (fun p => (x :: p.1, p.2))
    | _ => none

/-- Replace every occurrence of `a` by `b`.  Models Rust `str::replace(char, char)`. -/
def strReplaceCh (s : String) (a b : Char) : String :=
  ⟨s.data.map (fun c => if c = a then b else c)⟩

/-- Split a character list on every occurrence of `c` (separator not kept). -/
def splitAllCh (c : Char) : List Char → List (List Char)
  | [] => [[]]
  | x :: xs =>
    if x = c then [] :: splitAllCh c xs
    else
      match splitAllCh c xs with
      | [] => [[x]]
      | g :: gs => (x :: g) :: gs

/-- Drop one trailing carriage return, as Rust `str::lines` does per line. -/
def dropTrailCr (l : List Char) : List Char :=
  match l.reverse with
  | '\r' :: rest => rest.reverse
  | _ => l

/-- Model of Rust `str::lines`: split on newline, no empty trailing line,
each line stripped of one trailing carriage return. -/
def rustLines (s : String) : List String :=
  let parts := splitAllCh '\n' s.data
  let parts :=
    match parts.getLast? with
    | some [] => parts.dropLast
    | _ => parts
  parts.map (fun l => ⟨dropTrailCr l⟩)

/-- Model of Rust `str::starts_with` for a short ASCII marker. -/
def strStartsWith (s : String) (m : String) : Bool :=
  m.data.isPrefixOf s.data

/-- Model of Rust byte-slicing `line[n..]` for ASCII markers (drop `n` characters). -/
def strDropN (s : String) (n : Nat) : String :=
  ⟨s.data.drop n⟩

/-- Parse a nonempty all-digit string into a number.
Models the successful cases of Rust `str::parse::<u64>()` on plain digit input. -/
def parseNatDigits (s : String) : Option Nat :=
  if s.data ≠ [] ∧ s.data.all Char.isDigit then
    some (s.data.foldl (fun a c => a * 10 + (c.toNat - 48)) 0)
  else none

deriving instance DecidableEq for Except

/-! ## Model of the `url` crate at the granularity the crawler observes -/

/-- A host component: either a registered domain name or an IP address.
`Url::domain()` returns `None` on IP-address hosts. -/
inductive Host where
  | domain (name : String)
  | ip (addr : String)
deriving DecidableEq

/-- Model of `url::Url`: an absolute resource identifier. -/
structure Url where
  scheme : String
  host : Option Host
  path : String
deriving DecidableEq

/-- Model of `Url::domain()`: the host name when it is a domain, `None` when the
host is absent or an IP address. -/
def Url.domain (u : Url) : Option String :=
  match u.host with
  | some (.domain d) => some d
  | _ => none

/-- The `url` crate parse errors distinguished by the crawler. -/
inductive UrlError where
  | relativeUrlWithoutBase
  | emptyHost
deriving DecidableEq

/-- Schemes the `url` crate treats as special (empty host is a parse error). -/
def specialSchemes : List String :=
  ["http", "https", "ws", "wss", "ftp", "file"]

/-- Model of `Url::parse` (no base): an input without a scheme separator is a
relative-reference error; a special-scheme input with an empty authority is an
empty-host error; otherwise the scheme, host and path are recorded. -/
def urlParse (s : String) : Except UrlError Url :=
  match splitOnceScheme s.data with
  | none => .error .relativeUrlWithoutBase
  | some (schemeCs, restCs) =>
    let hostCs := restCs.takeWhile (fun c => c ≠ '/')
    let pathCs := restCs.dropWhile (fun c => c ≠ '/')
    if hostCs = [] ∧ specialSchemes.contains ⟨schemeCs⟩ then
      .error .emptyHost
    else
      .ok { scheme := ⟨schemeCs⟩
            host := if hostCs = [] then none else some (.domain ⟨hostCs⟩)
            path := ⟨pathCs⟩ }

/-- Model of `Url::join`: resolve a relative reference against a base
(scheme and host come from the base). -/
def urlJoin (base : Url) (s : String) : Url :=
  { scheme := base.scheme
    host := base.host
    path := if strStartsWith s "/" then s else ⟨(base.path.data.takeWhile (fun c => c ≠ '/')) ++ '/' :: s.data⟩ }

/-- Model of `Url::options().base_url(Some(base)).parse`: absolute references
parse as usual, relative references resolve against the base, and every other
parse failure is surfaced unchanged. -/
def urlParseWithBase (base : Url) (s : String) : Except UrlError Url :=
  match urlParse s with
  | .ok u => .ok u
  | .error .relativeUrlWithoutBase => .ok (urlJoin base s)
  | .error e => .error e

/-! ## Model of the `mime` crate -/

/-- Model of `mime::Mime`: a media type split into type and subtype
(parameters are dropped; the crawler only inspects the essence). -/
structure Mime where
  typ : String
  subtype : String
deriving DecidableEq

/-- Model of `Mime::essence_str()`. -/
def Mime.essence (m : Mime) : String :=
  m.typ ++ "/" ++ m.subtype

/-- Model of `str::parse::<Mime>()`: the essence is the part before any
parameter list, split at the first slash into nonempty type and subtype. -/
def parseMime (s : String) : Option Mime :=
  let e := strTrim ⟨s.data.takeWhile (fun c => c ≠ ';')⟩
  match splitOnceCh '/' e.data with
  | some (t, sub) =>
    if t ≠ [] ∧ sub ≠ [] then some ⟨⟨t⟩, ⟨sub⟩⟩ else none
  | none => none

/-! ## gemini_web.rs: GeminiHeader -/

/-- The `GeminiHeader` enum of `gemini_web.rs`. -/
inductive GeminiHeader where
  | Input (s : String)
  | Success (m : Mime)
  | Redirect (u : Url)
  | TempFail (s : String)
  | PermFail (s : String)
  | Auth (s : String)
deriving DecidableEq

/-- `impl FromStr for GeminiHeader` of `gemini_web.rs`: split the status line at
the first space, parse the code, and classify it by range. -/
def GeminiHeader.fromStr (s : String) : Except String GeminiHeader :=
  match strSplitOnce s ' ' with
  | none => .error "no status code"
  | some (codeStr, rest) =>
    match parseNatDigits codeStr with
    | none => .error "invalid digit"
    | some code =>
      if 10 ≤ code ∧ code ≤ 19 then .ok (.Input rest)
      else if 20 ≤ code ∧ code ≤ 29 then
        match parseMime rest with
        | some m => .ok (.Success m)
        | none => .error "invalid mime"
      else if 30 ≤ code ∧ code ≤ 39 then
        match urlParse rest with
        | .ok u => .ok (.Redirect u)
        | .error _ => .error "invalid redirect url"
      else if 40 ≤ code ∧ code ≤ 49 then .ok (.TempFail rest)
      else if 50 ≤ code ∧ code ≤ 59 then .ok (.PermFail rest)
      else if 60 ≤ code ∧ code ≤ 69 then .ok (.Auth rest)
      else .error "invalid status code"

/-! ## gemini_web.rs: GeminiText -/

/-- The `GeminiTextHeaderLevel` enum. -/
inductive GeminiTextHeaderLevel where
  | L1
  | L2
  | L3
deriving DecidableEq

/-- The `GeminiTextStatement` enum. -/
inductive GeminiTextStatement where
  | Line (s : String)
  | Link (u : Url) (label : String)
  | ListItem (s : String)
  | Header (l : GeminiTextHeaderLevel) (s : String)
deriving DecidableEq

/-- The `GeminiText` newtype: an ordered list of statements. -/
structure GeminiText where
  statements : List GeminiTextStatement
deriving DecidableEq

/-- The url token of a link line body (after the `=>` marker was removed):
trim, normalize tabs to spaces, split at the first space, trim the token.
Mirrors the link arm of `GeminiText::new`. -/
def linkParts (afterMarker : String) : String × String :=
  let l := strReplaceCh (strTrim afterMarker) '\t' ' '
  let (url, label) := (strSplitOnce l ' ').getD (l, "")
  (strTrim url, strTrim label)

/-- One iteration of the loop in `GeminiText::new`: trim the line, toggle
preformatted mode on a fence, record preformatted lines as plain lines, and
otherwise classify by leading marker.  The state is the `in_pre` flag together
with the statements accumulated so far. -/
def geminiTextStep (base : Url) (st : Bool × List GeminiTextStatement) (rawLine : String) :
    Except UrlError (Bool × List GeminiTextStatement) :=
  let line := strTrim rawLine
  let inPre := if line = "```" then !st.1 else st.1
  if inPre then
    .ok (inPre, st.2 ++ [.Line line])
  else if strStartsWith line "=>" then
    let (url, label) := linkParts (strDropN line 2)
    match urlParseWithBase base url with
    | .ok u => .ok (inPre, st.2 ++ [.Link u label])
    | .error e => .error e
  else if strStartsWith line "###" then
    .ok (inPre, st.2 ++ [.Header .L3 (strTrim (strDropN line 3))])
  else if strStartsWith line "##" then
    .ok (inPre, st.2 ++ [.Header .L2 (strTrim (strDropN line 2))])
  else if strStartsWith line "#" then
    .ok (inPre, st.2 ++ [.Header .L1 (strTrim (strDropN line 1))])
  else if strStartsWith line "*" then
    .ok (inPre, st.2 ++ [.ListItem (strTrim (strDropN line 1))])
  else
    .ok (inPre, st.2 ++ [.Line line])

/-- `GeminiText::new` of `gemini_web.rs`: fold the line classifier over the
body's lines; a link-target parse failure aborts the whole parse. -/
def GeminiText.new (body : String) (base : Url) : Except UrlError GeminiText := do
  let st ← (rustLines body).foldlM (geminiTextStep base) (false, [])
  return ⟨st.2⟩

/-! ## gemini_web.rs: GeminiResponse and parse_body_urls -/

/-- The `GeminiResponse` struct. -/
structure GeminiResponse where
  url : Url
  header : GeminiHeader
  body : GeminiText
deriving DecidableEq

/-- `GeminiResponse::new`: split the raw response at the first CRLF into the
status line and the body, parse both. -/
def GeminiResponse.new (response : String) (url : Url) : Except String GeminiResponse :=
  match splitOnceSub2 '\r' '\n' response.data with
  | none => .error "Gemini response invalid format"
  | some (headerCs, bodyCs) =>
    match GeminiHeader.fromStr ⟨headerCs⟩ with
    | .error e => .error e
    | .ok header =>
      match GeminiText.new ⟨bodyCs⟩ url with
      | .error _ => .error "invalid link url"
      | .ok body => .ok { url := url, header := header, body := body }

/-- `GeminiResponse::gemini_urls`: the link targets of the body whose scheme is
`gemini`. -/
def GeminiResponse.gemini_urls (r : GeminiResponse) : List Url :=
  r.body.statements.filterMap fun s =>
    match s with
    | .Link u _ => if u.scheme = "gemini" then some u else none
    | _ => none

/-- The per-line extraction of `parse_body_urls`: `none` for non-link lines and
for link targets that fail to parse for a non-relative reason. -/
def parseBodyUrlsLine (base : Url) (line : String) : Option Url :=
  if strStartsWith line "=>" then
    let l := strReplaceCh (strTrim (strDropN line 2)) '\t' ' '
    let (tok, _) := (strSplitOnce l ' ').getD (l, "")
    match urlParse tok with
    | .ok u => if u.scheme = "gemini" then some u else none
    | .error .relativeUrlWithoutBase => some (urlJoin base tok)
    | .error _ => none
  else none

/-- `parse_body_urls` on an explicit line list. -/
def parseBodyUrlsLines (base : Url) (ls : List String) : List Url :=
  ls.filterMap (parseBodyUrlsLine base)

/-- `parse_body_urls` of `gemini_web.rs`: extract link targets line by line,
dropping any line whose target fails to parse for a non-relative reason. -/
def parse_body_urls (base : Url) (body : String) : List Url :=
  parseBodyUrlsLines base (rustLines body)

/-! ## gemini_web.rs: GeminiWeb (link graph store)

`petgraph::Graph` is modelled by the node list (a node's index is its position)
and an association list of directed edges with weights; `HashMap`/`HashSet` are
modelled by association lists and lists with first-match lookup. -/

/-- Lookup in the `url_node_ids` map (model of `HashMap::get`). -/
def lookupId : List (Url × Nat) → Url → Option Nat
  | [], _ => none
  | p :: rest, u => if p.1 = u then some p.2 else lookupId rest u

/-- First-match edge-weight lookup (model of `Graph::find_edge` +
`Graph::edge_weight`). -/
def findEdgeW : List ((Nat × Nat) × Nat) → Nat × Nat → Option Nat
  | [], _ => none
  | e :: rest, k => if e.1 = k then some e.2 else findEdgeW rest k

/-- Replace the weight of the first edge with key `k`, or append a new edge
(model of `Graph::update_edge`). -/
def updateAssoc : List ((Nat × Nat) × Nat) → Nat × Nat → Nat → List ((Nat × Nat) × Nat)
  | [], k, w => [(k, w)]
  | e :: rest, k, w => if e.1 = k then (k, w) :: rest else e :: updateAssoc rest k w

/-- Model of `Graph<Url, usize>`. -/
structure GeminiGraph where
  nodes : List Url
  edges : List ((Nat × Nat) × Nat)
deriving DecidableEq

/-- The `GeminiWeb` struct of `gemini_web.rs`. -/
structure GeminiWeb where
  graph : GeminiGraph
  visited : List Url
  url_node_ids : List (Url × Nat)
  url_response : List (Url × GeminiResponse)
deriving DecidableEq

/-- `GeminiWeb::new`. -/
def GeminiWeb.new : GeminiWeb :=
  { graph := { nodes := [], edges := [] }
    visited := []
    url_node_ids := []
    url_response := [] }

/-- `GeminiWeb::add_node`: return the existing id when the url was seen before,
otherwise allocate a fresh node whose id is the current node count. -/
def GeminiWeb.add_node (w : GeminiWeb) (url : Url) : GeminiWeb × Nat :=
  match lookupId w.url_node_ids url with
  | some i => (w, i)
  | none =>
    let i := w.graph.nodes.length
    ({ w with
        graph := { w.graph with nodes := w.graph.nodes ++ [url] }
        url_node_ids := (url, i) :: w.url_node_ids }, i)

/-- `GeminiWeb::add_urls`: for each target in order, add its node, then set the
(base, target) edge weight to old weight + 1 (1 when absent); return the ids in
input order. -/
def GeminiWeb.add_urls (w : GeminiWeb) (base_node_id : Nat) (urls : List Url) :
    GeminiWeb × List Nat :=
  match urls with
  | [] => (w, [])
  | u :: rest =>
    let (w1, nid) := w.add_node u
    let ew :=
      match findEdgeW w1.graph.edges (base_node_id, nid) with
      | some e => e + 1
      | none => 1
    let w2 := { w1 with graph := { w1.graph with edges := updateAssoc w1.graph.edges (base_node_id, nid) ew } }
    let (w3, ids) := w2.add_urls base_node_id rest
    (w3, nid :: ids)

/-- Model of `HashSet::insert`: returns the new set and whether the element was
newly inserted. -/
def hsInsert (s : List Url) (u : Url) : List Url × Bool :=
  if u ∈ s then (s, false) else (s ++ [u], true)

/-- `GeminiWeb::try_visit`: insert into the visited set, returning `true` when
the url had already been visited. -/
def GeminiWeb.try_visit (w : GeminiWeb) (url : Url) : GeminiWeb × Bool :=
  let (v, inserted) := hsInsert w.visited url
  ({ w with visited := v }, !inserted)

/-- `GeminiWeb::unvisited`: the registered urls (keys of `url_node_ids`) that
are not in the visited set. -/
def GeminiWeb.unvisited (w : GeminiWeb) : List Url :=
  (w.url_node_ids.map Prod.fst).filter (fun u => !(decide (u ∈ w.visited)))

/-! ## main.rs: the protocol client `gemini_get_recursion`

The network transfer and raw response parse (lines 34-56 of `main.rs`) are
abstracted into a `server` function from url to parsed response or transport
error; the redirect logic over it follows the source exactly. -/

/-- `MAX_REDIRECT` of `main.rs`. -/
def MAX_REDIRECT : Nat := 256

/-- The outcomes of one `gemini_get_recursion` call, separating the panic on a
domain-less url (`url.domain().unwrap()`) from the returned errors. -/
inductive FetchError where
  | maxRedirect
  | panicNoDomain
  | transport (e : String)
  | invalidMime (m : Mime)
  | invalidHeader (h : GeminiHeader)
deriving DecidableEq

/-- `gemini_get_recursion` of `main.rs`: fail once the redirect count exceeds
`MAX_REDIRECT`, panic when the url has no domain, query the server, return
text/gemini successes, follow redirects with the count incremented by one, and
reject everything else. -/
def gemini_get_recursion (server : Url → Except String GeminiResponse) (url : Url)
    (redirect_count : Nat) : Except FetchError GeminiResponse :=
  if redirect_count > MAX_REDIRECT then
    .error .maxRedirect
  else
    match url.domain with
    | none => .error .panicNoDomain
    | some _ =>
      match server url with
      | .error e => .error (.transport e)
      | .ok response =>
        match response.header with
        | .Success m =>
          if m.essence = "text/gemini" then .ok response else .error (.invalidMime m)
        | .Redirect u => gemini_get_recursion server u (redirect_count + 1)
        | h => .error (.invalidHeader h)
termination_by MAX_REDIRECT + 1 - redirect_count
decreasing_by
  simp_wf
  omega

/-- `gemini_get` of `main.rs`. -/
def gemini_get (server : Url → Except String GeminiResponse) (url : Url) :
    Except FetchError GeminiResponse :=
  gemini_get_recursion server url 0

/-! ## main.rs: the scheduler `visit_url`

The consumer loop body (lines 137-144) is `consumerStep`; the whole
producer/consumer system with its two bounded channels is the transition system
`SchedStep` below, with one rule per await point of the two tasks. -/

/-- The body of the consumer loop of `visit_url`: insert the fetched url into
the visited set, extract the gemini links, keep only the unvisited ones, update
the graph with the kept links, and emit the kept links for the frontier. -/
def consumerStep (web : GeminiWeb) (url : Url) (node_id : Nat) (response : GeminiResponse) :
    GeminiWeb × List (Url × Nat) :=
  let web1 := { web with visited := (hsInsert web.visited url).1 }
  let urls := response.gemini_urls
  let urls := urls.filter (fun u => !(decide (u ∈ web1.visited)))
  let (web2, node_ids) := web1.add_urls node_id urls
  (web2, urls.zip node_ids)

/-- The joint state of `visit_url` and its spawned querier task: the contents of
the url channel and of the response channel, the crawl state, and whether each
channel's sender was dropped or the function returned. -/
structure SchedState where
  urlQ : List (Url × Nat)
  respQ : List (Url × Nat × GeminiResponse)
  web : GeminiWeb
  urlTxDropped : Bool
  respTxDropped : Bool
  returned : Bool
deriving DecidableEq

/-- The state right after `visit_url` lines 114-120: the seed node added and the
seed message sent on the url channel. -/
def initState (web0 : GeminiWeb) (base_url : Url) : SchedState :=
  let (web, base_node_id) := web0.add_node base_url
  { urlQ := [(base_url, base_node_id)]
    respQ := []
    web := web
    urlTxDropped := false
    respTxDropped := false
    returned := false }

/-- One step of the `visit_url` system.  `fetch` abstracts `gemini_get`
(`none` is a fetch error, which the querier logs and drops).  A `recv` returns
`none` — enabling the end steps — only when the channel is empty and its sender
was dropped, which is the tokio mpsc contract. -/
inductive SchedStep (fetch : Url → Option GeminiResponse) : SchedState → SchedState → Prop where
  | querierOk (s : SchedState) (u : Url) (n : Nat) (r : GeminiResponse) (rest : List (Url × Nat))
      (hq : s.urlQ = (u, n) :: rest) (hf : fetch u = some r) :
      SchedStep fetch s { s with urlQ := rest, respQ := s.respQ ++ [(u, n, r)] }
  | querierErr (s : SchedState) (u : Url) (n : Nat) (rest : List (Url × Nat))
      (hq : s.urlQ = (u, n) :: rest) (hf : fetch u = none) :
      SchedStep fetch s { s with urlQ := rest }
  | querierEnd (s : SchedState)
      (hq : s.urlQ = []) (hd : s.urlTxDropped = true) :
      SchedStep fetch s { s with respTxDropped := true }
  | consumerRecv (s : SchedState) (u : Url) (n : Nat) (r : GeminiResponse)
      (rest : List (Url × Nat × GeminiResponse))
      (hq : s.respQ = (u, n, r) :: rest) :
      SchedStep fetch s
        { s with
            respQ := rest
            web := (consumerStep s.web u n r).1
            urlQ := s.urlQ ++ (consumerStep s.web u n r).2 }
  | consumerEnd (s : SchedState)
      (hq : s.respQ = []) (hd : s.respTxDropped = true) :
      SchedStep fetch s { s with returned := true, urlTxDropped := true }

/-- The states the `visit_url` system can reach from its initial state. -/
inductive SchedReachable (fetch : Url → Option GeminiResponse) (web0 : GeminiWeb) (base_url : Url) :
    SchedState → Prop where
  | init : SchedReachable fetch web0 base_url (initState web0 base_url)
  | step {s s' : SchedState} (hs : SchedReachable fetch web0 base_url s)
      (hstep : SchedStep fetch s s') : SchedReachable fetch web0 base_url s'

/-! ## Derived notions and fixtures used by the verification -/

/-- The edge weight read as a number, 0 when the edge is absent. -/
def edgeVal (w : GeminiWeb) (a b : Nat) : Nat :=
  (findEdgeW w.graph.edges (a, b)).getD 0

/-- Well-formedness of a `GeminiWeb` as maintained by the store operations:
registered ids are node positions, the url-to-id map is injective, and every
edge has a target id below the node count and a weight of at least one. -/
def WF (w : GeminiWeb) : Prop :=
  (∀ u i, lookupId w.url_node_ids u = some i → i < w.graph.nodes.length)
  ∧ (∀ u v i, lookupId w.url_node_ids u = some i → lookupId w.url_node_ids v = some i → u = v)
  ∧ (∀ e ∈ w.graph.edges, e.1.2 < w.graph.nodes.length ∧ 1 ≤ e.2)

/-- Run a sequence of `add_urls` calls, each a source id with its target list. -/
def runAddUrls (w : GeminiWeb) (calls : List (Nat × List Url)) : GeminiWeb :=
  calls.foldl (fun w c => (w.add_urls c.1 c.2).1) w

/-- How many times target `t` is observed from source `s` across a call
sequence. -/
def countObs (calls : List (Nat × List Url)) (s : Nat) (t : Url) : Nat :=
  (calls.map (fun c => if c.1 = s then c.2.count t else 0)).sum

/-- Concrete resources used by witnesses and counterexamples. -/
def urlA : Url := ⟨"gemini", some (.domain "a"), "/a"⟩

/-- A second concrete resource, distinct from `urlA`. -/
def urlB : Url := ⟨"gemini", some (.domain "b"), "/b"⟩

/-- A store that has discovered `urlA` only. -/
def webA : GeminiWeb := (GeminiWeb.new.add_node urlA).1

/-- `webA` with `urlB` already visited. -/
def webAvisB : GeminiWeb := (webA.try_visit urlB).1

/-- A response for `urlA` whose body links to `urlB` once. -/
def respLinkB : GeminiResponse :=
  { url := urlA, header := .Success ⟨"text", "gemini"⟩, body := ⟨[.Link urlB ""]⟩ }

/-- The `i`-th resource of the redirect chain: the path length encodes the
position. -/
def chainUrl (i : Nat) : Url :=
  ⟨"gemini", some (.domain "chain"), ⟨List.replicate i 'a'⟩⟩

/-- A successful text/gemini response for `u` with an empty body. -/
def successResp (u : Url) : GeminiResponse :=
  { url := u, header := .Success ⟨"text", "gemini"⟩, body := ⟨[]⟩ }

/-- A redirect response from `u` to `target`. -/
def redirectResp (u target : Url) : GeminiResponse :=
  { url := u, header := .Redirect target, body := ⟨[]⟩ }

/-- A server hosting a redirect chain of exactly `k` hops: positions below `k`
redirect to the next position, position `k` answers success. -/
def chainServer (k : Nat) : Url → Except String GeminiResponse := fun u =>
  if u.path.data.length < k then
    .ok (redirectResp u (chainUrl (u.path.data.length + 1)))
  else
    .ok (successResp u)

/-- The body of one `add_urls` iteration: add the node for one target and bump
the weight of the edge from `s` to it. -/
def addOneUrl (w : GeminiWeb) (s : Nat) (u : Url) : GeminiWeb × Nat :=
  let p := w.add_node u
  let ew :=
    match findEdgeW p.1.graph.edges (s, p.2) with
    | some e => e + 1
    | none => 1
  ({ p.1 with graph := { p.1.graph with edges := updateAssoc p.1.graph.edges (s, p.2) ew } },
   p.2)

/-! ## Claim C6: status classification -/

/-- C6: for well-formed status lines, the header classifier maps codes 10 and
19 to Input, 20 and 29 to Success, 30 and 39 to Redirect, 40 and 49 to
TempFail, 50 and 59 to PermFail, 60 and 69 to Auth, while the out-of-bucket
codes 5, 70 and 100 yield a classification error. -/
theorem header_status_classification :
    (∀ m : String, GeminiHeader.fromStr ("10 " ++ m) = .ok (.Input m))
    ∧ (∀ m : String, GeminiHeader.fromStr ("19 " ++ m) = .ok (.Input m))
    ∧ GeminiHeader.fromStr "20 text/gemini" = .ok (.Success ⟨"text", "gemini"⟩)
    ∧ GeminiHeader.fromStr "29 text/gemini" = .ok (.Success ⟨"text", "gemini"⟩)
    ∧ GeminiHeader.fromStr "30 gemini://h/p" = .ok (.Redirect ⟨"gemini", some (.domain "h"), "/p"⟩)
    ∧ GeminiHeader.fromStr "39 gemini://h/p" = .ok (.Redirect ⟨"gemini", some (.domain "h"), "/p"⟩)
    ∧ (∀ m : String, GeminiHeader.fromStr ("40 " ++ m) = .ok (.TempFail m))
    ∧ (∀ m : String, GeminiHeader.fromStr ("49 " ++ m) = .ok (.TempFail m))
    ∧ (∀ m : String, GeminiHeader.fromStr ("50 " ++ m) = .ok (.PermFail m))
    ∧ (∀ m : String, GeminiHeader.fromStr ("59 " ++ m) = .ok (.PermFail m))
    ∧ (∀ m : String, GeminiHeader.fromStr ("60 " ++ m) = .ok (.Auth m))
    ∧ (∀ m : String, GeminiHeader.fromStr ("69 " ++ m) = .ok (.Auth m))
    ∧ (∀ m : String, GeminiHeader.fromStr ("5 " ++ m) = .error "invalid status code")
    ∧ (∀ m : String, GeminiHeader.fromStr ("70 " ++ m) = .error "invalid status code")
    ∧ (∀ m : String, GeminiHeader.fromStr ("100 " ++ m) = .error "invalid status code") :=
  ⟨fun _ => rfl, fun _ => rfl, rfl, rfl, rfl, rfl, fun _ => rfl, fun _ => rfl,
   fun _ => rfl, fun _ => rfl, fun _ => rfl, fun _ => rfl, fun _ => rfl,
   fun _ => rfl, fun _ => rfl⟩

/-! ## Claim C7: addNode idempotence -/

/-- C7: `add_node` is idempotent — a second call with the same resource returns
the same id and leaves the store unchanged — and a new node is allocated
exactly when the resource's identifier had never been seen before. -/
theorem add_node_idempotent (w : GeminiWeb) (r : Url) :
    ((w.add_node r).1.add_node r).2 = (w.add_node r).2
    ∧ ((w.add_node r).1.add_node r).1 = (w.add_node r).1
    ∧ ((w.add_node r).1.graph.nodes.length = w.graph.nodes.length ↔
        lookupId w.url_node_ids r ≠ none) := by
  cases h : lookupId w.url_node_ids r with
  | some i =>
    simp only [GeminiWeb.add_node, h]
    simp
  | none =>
    simp only [GeminiWeb.add_node, h, lookupId]
    simp

/-! ## Claim C10: panic on domain-less urls -/

/-- C10: `gemini_get` requires a named host — on a url whose host is absent or
an IP address, the client hits the `url.domain().unwrap()` panic before any
connection is attempted (no server behaviour can influence the outcome), rather
than returning one of its classified errors. -/
theorem fetch_panics_without_domain
    (server : Url → Except String GeminiResponse) (url : Url)
    (h : url.host = none ∨ ∃ a, url.host = some (.ip a)) :
    gemini_get server url = .error .panicNoDomain := by
  have hd : url.domain = none := by
    rcases h with h | ⟨a, h⟩ <;> simp [Url.domain, h]
  unfold gemini_get gemini_get_recursion
  simp [hd, MAX_REDIRECT]

/-- Witness for C10 at a concrete host-less url. -/
theorem fetch_panics_without_domain_witness :
    ((⟨"gemini", none, "/"⟩ : Url).host = none
      ∨ ∃ a, (⟨"gemini", none, "/"⟩ : Url).host = some (.ip a))
    ∧ gemini_get (fun _ => .error "unreachable") ⟨"gemini", none, "/"⟩ =
        .error .panicNoDomain :=
  ⟨Or.inl rfl,
   fetch_panics_without_domain (fun _ => .error "unreachable") ⟨"gemini", none, "/"⟩
     (Or.inl rfl)⟩

/-! ## Claim C2: preformatted fences -/

/-- C2 counterexample: the parser records both fence lines as content.  On the
body made of an opening fence, an indented link-looking line, and a closing
fence, the resulting document contains three PlainLines: both fences appear as
content, and the inner line is recorded trimmed rather than verbatim. -/
theorem fence_line_recorded_counterexample :
    GeminiText.new "```\n  => x  \n```" urlA =
      .ok ⟨[.Line "```", .Line "=> x", .Line "```"]⟩
    ∧ (GeminiTextStatement.Line "```")
        ∈ ([.Line "```", .Line "=> x", .Line "```"] : List GeminiTextStatement) := by
  constructor
  · rfl
  · decide

/-- C2 amended: a line whose trim equals the fence marker toggles preformatted
mode but is itself recorded as a PlainLine `"```"` (the just-toggled-on fence is
pushed by the preformatted branch, the just-toggled-off fence by the default
match arm); and every other line read while preformatted mode is active is
recorded as a PlainLine of its trimmed text, even if it matches a link,
heading, or list-item marker. -/
theorem fence_toggle_amended (base : Url) (st : Bool × List GeminiTextStatement)
    (rawLine : String) :
    (strTrim rawLine = "```" →
      geminiTextStep base st rawLine = .ok (!st.1, st.2 ++ [.Line "```"]))
    ∧ (st.1 = true → strTrim rawLine ≠ "```" →
      geminiTextStep base st rawLine = .ok (true, st.2 ++ [.Line (strTrim rawLine)])) := by
  constructor
  · intro h
    cases hb : st.1 with
    | false => simp [geminiTextStep, h, hb]
    | true => simp [geminiTextStep, h, hb, strStartsWith]
  · intro hb h
    simp [geminiTextStep, h, hb]

/-- Witness for C2 amended: both fence toggles and a marker-looking
preformatted line, at concrete inputs. -/
theorem fence_toggle_amended_witness :
    (strTrim " ``` " = "```"
      ∧ geminiTextStep urlA (false, []) " ``` " = .ok (!false, [] ++ [.Line "```"]))
    ∧ (strTrim "```" = "```"
      ∧ geminiTextStep urlA (true, [.Line "a"]) "```" =
          .ok (!true, [.Line "a"] ++ [.Line "```"]))
    ∧ ((true = true ∧ strTrim "=> q" ≠ "```")
      ∧ geminiTextStep urlA (true, []) "=> q" = .ok (true, [] ++ [.Line (strTrim "=> q")])) :=
  ⟨⟨by decide, (fence_toggle_amended urlA (false, []) " ``` ").1 (by decide)⟩,
   ⟨by decide, (fence_toggle_amended urlA (true, [.Line "a"]) "```").1 (by decide)⟩,
   ⟨⟨rfl, by decide⟩, (fence_toggle_amended urlA (true, []) "=> q").2 rfl (by decide)⟩⟩

/-! ## Claim C4: natural termination of the crawl run -/

/-- C4 (code defect): `visit_url` never completes naturally.  In every state the
system of the consumer loop and the spawned querier task can reach, neither
channel sender has been dropped and the function has not returned: the url
sender is dropped only when `visit_url` returns, the response sender only when
the querier sees the url channel closed, and the consumer loop ends only when
the response channel closes — so even with the frontier empty and no fetch in
flight, no end step is ever enabled. -/
theorem visit_url_never_returns
    (fetch : Url → Option GeminiResponse) (web0 : GeminiWeb) (base_url : Url)
    (s : SchedState) (h : SchedReachable fetch web0 base_url s) :
    s.urlTxDropped = false ∧ s.respTxDropped = false ∧ s.returned = false := by
  induction h with
  | init => exact ⟨rfl, rfl, rfl⟩
  | step hs hstep ih =>
    cases hstep with
    | querierOk u n r rest hq hf => simpa using ih
    | querierErr u n rest hq hf => simpa using ih
    | querierEnd hq hd => rw [ih.1] at hd; exact absurd hd (by simp)
    | consumerRecv u n r rest hq => simpa using ih
    | consumerEnd hq hd => rw [ih.2.1] at hd; exact absurd hd (by simp)

/-- Witness for C4: the initial state of a concrete crawl (a seed whose fetch
fails) is reachable and not returned. -/
theorem visit_url_never_returns_witness :
    (initState GeminiWeb.new urlA).urlTxDropped = false
    ∧ (initState GeminiWeb.new urlA).respTxDropped = false
    ∧ (initState GeminiWeb.new urlA).returned = false :=
  visit_url_never_returns (fun _ => none) GeminiWeb.new urlA
    (initState GeminiWeb.new urlA) SchedReachable.init

/-! ## Claim C5: redirect bound -/

/-- Chain positions below `k` answer a redirect to the next position. -/
theorem chainServer_lt {k i : Nat} (h : i < k) :
    chainServer k (chainUrl i) = .ok (redirectResp (chainUrl i) (chainUrl (i + 1))) := by
  simp [chainServer, chainUrl, h]

/-- Chain position `k` (and beyond) answers success. -/
theorem chainServer_ge {k i : Nat} (h : ¬ i < k) :
    chainServer k (chainUrl i) = .ok (successResp (chainUrl i)) := by
  simp [chainServer, chainUrl, h]

/-- Following the chain from position `i` with current count `c` succeeds when
the remaining hops fit under the limit. -/
theorem chain_success (d : Nat) :
    ∀ (k i c : Nat), k = i + d → c + d ≤ MAX_REDIRECT →
      gemini_get_recursion (chainServer k) (chainUrl i) c = .ok (successResp (chainUrl k)) := by
  induction d with
  | zero =>
    intro k i c hk hc
    subst hk
    have h1 : ¬ c > MAX_REDIRECT := by omega
    unfold gemini_get_recursion
    rw [if_neg h1, chainServer_ge (by omega)]
    rfl
  | succ d ih =>
    intro k i c hk hc
    have h1 : ¬ c > MAX_REDIRECT := by omega
    have h2 : i < k := by omega
    unfold gemini_get_recursion
    rw [if_neg h1, chainServer_lt h2]
    show gemini_get_recursion (chainServer k) (chainUrl (i + 1)) (c + 1) = _
    exact ih k (i + 1) (c + 1) (by omega) (by omega)

/-- Following the chain from position `i` with current count `c` hits the
redirect limit when the remaining hops overshoot it. -/
theorem chain_fail (d : Nat) :
    ∀ (k i c : Nat), k = i + d → c + d > MAX_REDIRECT →
      gemini_get_recursion (chainServer k) (chainUrl i) c = .error .maxRedirect := by
  induction d with
  | zero =>
    intro k i c hk hc
    have h1 : c > MAX_REDIRECT := by omega
    unfold gemini_get_recursion
    rw [if_pos h1]
  | succ d ih =>
    intro k i c hk hc
    by_cases h1 : c > MAX_REDIRECT
    · unfold gemini_get_recursion
      rw [if_pos h1]
    · have h2 : i < k := by omega
      unfold gemini_get_recursion
      rw [if_neg h1, chainServer_lt h2]
      show gemini_get_recursion (chainServer k) (chainUrl (i + 1)) (c + 1) = _
      exact ih k (i + 1) (c + 1) (by omega) (by omega)

/-- C5: on a server hosting a redirect chain, a chain of at most `MAX_REDIRECT`
hops (so in particular exactly `MAX_REDIRECT` hops) is followed to the end and
the fetch succeeds, while a chain of exactly `MAX_REDIRECT + 1` hops fails with
the redirect-limit error, the count being incremented by one per hop from
zero. -/
theorem redirect_limit_bound :
    (∀ k : Nat, k ≤ MAX_REDIRECT →
      gemini_get (chainServer k) (chainUrl 0) = .ok (successResp (chainUrl k)))
    ∧ gemini_get (chainServer (MAX_REDIRECT + 1)) (chainUrl 0) = .error .maxRedirect := by
  constructor
  · intro k hk
    exact chain_success k k 0 0 (by omega) (by omega)
  · exact chain_fail (MAX_REDIRECT + 1) (MAX_REDIRECT + 1) 0 0 (by omega) (by omega)

/-- Witness for C5: the chain of exactly 256 hops succeeds, the chain of 257
hops fails. -/
theorem redirect_limit_bound_witness :
    gemini_get (chainServer 256) (chainUrl 0) = .ok (successResp (chainUrl 256))
    ∧ gemini_get (chainServer 257) (chainUrl 0) = .error .maxRedirect :=
  ⟨redirect_limit_bound.1 256 (by decide), redirect_limit_bound.2⟩

/-! ## Store infrastructure lemmas -/

/-- `add_urls` on a nonempty list is one `addOneUrl` followed by the rest. -/
theorem add_urls_cons (w : GeminiWeb) (s : Nat) (u : Url) (rest : List Url) :
    w.add_urls s (u :: rest) =
      (((addOneUrl w s u).1.add_urls s rest).1,
        (addOneUrl w s u).2 :: ((addOneUrl w s u).1.add_urls s rest).2) := rfl

/-- `add_node` preserves existing id assignments. -/
theorem lookupId_mono_add_node (w : GeminiWeb) (u v : Url) (i : Nat)
    (h : lookupId w.url_node_ids v = some i) :
    lookupId (w.add_node u).1.url_node_ids v = some i := by
  cases hu : lookupId w.url_node_ids u with
  | some j => simp only [GeminiWeb.add_node, hu]; exact h
  | none =>
    simp only [GeminiWeb.add_node, hu]
    by_cases huv : u = v
    · subst huv; rw [h] at hu; cases hu
    · simp only [lookupId, if_neg huv]; exact h

/-- After `add_node u`, `u` is mapped to the returned id. -/
theorem add_node_lookup_self (w : GeminiWeb) (u : Url) :
    lookupId (w.add_node u).1.url_node_ids u = some (w.add_node u).2 := by
  cases hu : lookupId w.url_node_ids u with
  | some j => simp only [GeminiWeb.add_node, hu]
  | none => simp [GeminiWeb.add_node, hu, lookupId]

/-- `add_node` does not touch the edge list. -/
theorem add_node_edges (w : GeminiWeb) (u : Url) :
    (w.add_node u).1.graph.edges = w.graph.edges := by
  cases hu : lookupId w.url_node_ids u <;> simp [GeminiWeb.add_node, hu]

/-- `add_node` does not shrink the node list. -/
theorem add_node_nodes_le (w : GeminiWeb) (u : Url) :
    w.graph.nodes.length ≤ (w.add_node u).1.graph.nodes.length := by
  cases hu : lookupId w.url_node_ids u <;> simp [GeminiWeb.add_node, hu]

/-- `add_node` of a different url does not register an absent url. -/
theorem lookupId_none_add_node (w : GeminiWeb) (u v : Url) (huv : u ≠ v)
    (h : lookupId w.url_node_ids v = none) :
    lookupId (w.add_node u).1.url_node_ids v = none := by
  cases hu : lookupId w.url_node_ids u with
  | some j => simp only [GeminiWeb.add_node, hu]; exact h
  | none => simp only [GeminiWeb.add_node, hu, lookupId, if_neg huv]; exact h

/-- The empty store is well formed. -/
theorem WF_new : WF GeminiWeb.new := by
  refine ⟨?_, ?_, ?_⟩ <;> intro u <;> simp [GeminiWeb.new, lookupId]

/-- `add_node` preserves well-formedness. -/
theorem WF_add_node (w : GeminiWeb) (u : Url) (hw : WF w) : WF (w.add_node u).1 := by
  obtain ⟨hb, hinj, he⟩ := hw
  cases hu : lookupId w.url_node_ids u with
  | some j => simp only [GeminiWeb.add_node, hu]; exact ⟨hb, hinj, he⟩
  | none =>
    simp only [GeminiWeb.add_node, hu]
    refine ⟨?_, ?_, ?_⟩
    · intro v i h
      simp only [lookupId] at h
      by_cases huv : u = v
      · rw [if_pos huv] at h
        simp only [Option.some.injEq] at h
        simp only [List.length_append, List.length_cons, List.length_nil]
        omega
      · rw [if_neg huv] at h
        have := hb v i h
        simp
        omega
    · intro v v' i h h'
      simp only [lookupId] at h h'
      by_cases hv : u = v <;> by_cases hv' : u = v'
      · rw [← hv, ← hv']
      · rw [if_pos hv] at h
        rw [if_neg hv'] at h'
        simp at h
        have := hb v' i h'
        omega
      · rw [if_neg hv] at h
        rw [if_pos hv'] at h'
        simp at h'
        have := hb v i h
        omega
      · rw [if_neg hv] at h
        rw [if_neg hv'] at h'
        exact hinj v v' i h h'
    · intro e hme
      have := he e hme
      simp
      omega

/-- Updating an edge makes its weight readable at its key. -/
theorem findEdgeW_update_self (es : List ((Nat × Nat) × Nat)) (k : Nat × Nat) (wv : Nat) :
    findEdgeW (updateAssoc es k wv) k = some wv := by
  induction es with
  | nil => simp [updateAssoc, findEdgeW]
  | cons e rest ih =>
    by_cases h : e.1 = k
    · simp [updateAssoc, h, findEdgeW]
    · simp [updateAssoc, h, findEdgeW, ih]

/-- Updating an edge leaves other keys untouched. -/
theorem findEdgeW_update_other (es : List ((Nat × Nat) × Nat)) (k k' : Nat × Nat) (wv : Nat)
    (h : k' ≠ k) :
    findEdgeW (updateAssoc es k wv) k' = findEdgeW es k' := by
  have h2 : ¬ (k = k') := fun hh => h hh.symm
  induction es with
  | nil => simp [updateAssoc, findEdgeW, h2]
  | cons e rest ih =>
    by_cases he : e.1 = k
    · have he2 : ¬ (e.1 = k') := by rw [he]; exact h2
      simp [updateAssoc, he, findEdgeW, h2, he2]
    · by_cases he' : e.1 = k'
      · simp [updateAssoc, he, findEdgeW, he', h]
      · simp [updateAssoc, he, findEdgeW, he', ih]

/-- A readable edge weight comes from an entry of the edge list. -/
theorem findEdgeW_mem (es : List ((Nat × Nat) × Nat)) (k : Nat × Nat) (v : Nat)
    (h : findEdgeW es k = some v) : (k, v) ∈ es := by
  induction es with
  | nil => simp [findEdgeW] at h
  | cons e rest ih =>
    by_cases he : e.1 = k
    · simp only [findEdgeW, if_pos he] at h
      simp only [Option.some.injEq] at h
      have hkv : (k, v) = e := by rw [← he, ← h]
      rw [hkv]
      exact List.mem_cons_self e rest
    · simp only [findEdgeW, if_neg he] at h
      exact List.mem_cons_of_mem e (ih h)

/-- Every entry after an update is the new entry or an old one. -/
theorem mem_updateAssoc (es : List ((Nat × Nat) × Nat)) (k : Nat × Nat) (wv : Nat)
    (e : (Nat × Nat) × Nat) (h : e ∈ updateAssoc es k wv) : e = (k, wv) ∨ e ∈ es := by
  induction es with
  | nil => simp [updateAssoc] at h; left; exact h
  | cons e' rest ih =>
    by_cases he : e'.1 = k
    · simp only [updateAssoc, if_pos he, List.mem_cons] at h
      rcases h with h | h
      · left; exact h
      · right; exact List.mem_cons_of_mem e' h
    · simp only [updateAssoc, if_neg he, List.mem_cons] at h
      rcases h with h | h
      · right; rw [h]; exact List.mem_cons_self e' rest
      · rcases ih h with h | h
        · left; exact h
        · right; exact List.mem_cons_of_mem e' h

/-- A fresh `add_node` returns the next node index. -/
theorem add_node_fresh_id (w : GeminiWeb) (u : Url)
    (h : lookupId w.url_node_ids u = none) :
    (w.add_node u).2 = w.graph.nodes.length := by
  simp [GeminiWeb.add_node, h]

/-- The edge list after `addOneUrl` is an update of the previous one at the
(source, new node) key. -/
theorem addOneUrl_edges (w : GeminiWeb) (s : Nat) (u : Url) :
    (addOneUrl w s u).1.graph.edges =
      updateAssoc (w.add_node u).1.graph.edges (s, (w.add_node u).2)
        ((findEdgeW (w.add_node u).1.graph.edges (s, (w.add_node u).2)).getD 0 + 1) := by
  cases h : findEdgeW (w.add_node u).1.graph.edges (s, (w.add_node u).2) <;>
    simp [addOneUrl, h]

/-- `addOneUrl` preserves well-formedness. -/
theorem WF_addOneUrl (w : GeminiWeb) (s : Nat) (u : Url) (hw : WF w) :
    WF (addOneUrl w s u).1 := by
  obtain ⟨hb, hinj, he⟩ := WF_add_node w u hw
  have hnid : (w.add_node u).2 < (w.add_node u).1.graph.nodes.length :=
    hb u (w.add_node u).2 (add_node_lookup_self w u)
  refine ⟨hb, hinj, ?_⟩
  intro e hme
  rw [addOneUrl_edges] at hme
  rcases mem_updateAssoc _ _ _ _ hme with h | h
  · rw [h]
    exact ⟨hnid, by omega⟩
  · exact he e h

/-- `add_urls` preserves existing id assignments. -/
theorem lookupId_mono_add_urls (urls : List Url) :
    ∀ (w : GeminiWeb) (s : Nat) (v : Url) (i : Nat),
      lookupId w.url_node_ids v = some i →
      lookupId (w.add_urls s urls).1.url_node_ids v = some i := by
  induction urls with
  | nil => intro w s v i h; exact h
  | cons u rest ih =>
    intro w s v i h
    rw [add_urls_cons]
    exact ih (addOneUrl w s u).1 s v i (lookupId_mono_add_node w u v i h)

/-- `add_urls` does not shrink the node list. -/
theorem nodes_le_add_urls (urls : List Url) :
    ∀ (w : GeminiWeb) (s : Nat),
      w.graph.nodes.length ≤ (w.add_urls s urls).1.graph.nodes.length := by
  induction urls with
  | nil => intro w s; exact Nat.le_refl _
  | cons u rest ih =>
    intro w s
    rw [add_urls_cons]
    exact Nat.le_trans (add_node_nodes_le w u) (ih (addOneUrl w s u).1 s)

/-- `add_urls` preserves well-formedness. -/
theorem WF_add_urls (urls : List Url) :
    ∀ (w : GeminiWeb) (s : Nat), WF w → WF (w.add_urls s urls).1 := by
  induction urls with
  | nil => intro w s hw; exact hw
  | cons u rest ih =>
    intro w s hw
    rw [add_urls_cons]
    exact ih (addOneUrl w s u).1 s (WF_addOneUrl w s u hw)

/-- An id assigned during `add_urls` to a previously unseen url is at least the
previous node count. -/
theorem lookupId_none_fresh_add_urls (urls : List Url) :
    ∀ (w : GeminiWeb) (s : Nat) (t : Url) (tid : Nat),
      lookupId w.url_node_ids t = none →
      lookupId (w.add_urls s urls).1.url_node_ids t = some tid →
      w.graph.nodes.length ≤ tid := by
  induction urls with
  | nil =>
    intro w s t tid h h'
    have h2 : lookupId w.url_node_ids t = some tid := h'
    rw [h] at h2
    cases h2
  | cons u rest ih =>
    intro w s t tid h h'
    rw [add_urls_cons] at h'
    by_cases hut : u = t
    · subst hut
      have hself := add_node_lookup_self w u
      have hpers := lookupId_mono_add_urls rest (addOneUrl w s u).1 s u (w.add_node u).2 hself
      rw [h'] at hpers
      have : tid = (w.add_node u).2 := by
        injection hpers
      rw [this, add_node_fresh_id w u h]
    · have hnone : lookupId (w.add_node u).1.url_node_ids t = none :=
        lookupId_none_add_node w u t hut h
      exact Nat.le_trans (add_node_nodes_le w u) (ih (addOneUrl w s u).1 s t tid hnone h')

/-- Every url passed to `add_urls` is registered afterwards. -/
theorem lookup_some_of_mem_add_urls (urls : List Url) :
    ∀ (w : GeminiWeb) (s : Nat) (t : Url), t ∈ urls →
      ∃ j, lookupId (w.add_urls s urls).1.url_node_ids t = some j := by
  induction urls with
  | nil => intro w s t h; cases h
  | cons u rest ih =>
    intro w s t h
    rw [add_urls_cons]
    rcases List.mem_cons.mp h with h | h
    · subst h
      exact ⟨(w.add_node t).2,
        lookupId_mono_add_urls rest (addOneUrl w s t).1 s t (w.add_node t).2
          (add_node_lookup_self w t)⟩
    · exact ih (addOneUrl w s u).1 s t h

/-- `add_urls` from one source never touches edges of another source. -/
theorem add_urls_edges_other_source (urls : List Url) :
    ∀ (w : GeminiWeb) (s a b : Nat), a ≠ s →
      findEdgeW (w.add_urls s urls).1.graph.edges (a, b) =
        findEdgeW w.graph.edges (a, b) := by
  induction urls with
  | nil => intro w s a b ha; rfl
  | cons u rest ih =>
    intro w s a b ha
    rw [add_urls_cons, ih (addOneUrl w s u).1 s a b ha, addOneUrl_edges,
      findEdgeW_update_other _ _ _ _ (fun hh => ha (congrArg Prod.fst hh)),
      add_node_edges]

/-- `add_urls` never decrements or removes an edge. -/
theorem add_urls_edge_mono (urls : List Url) :
    ∀ (w : GeminiWeb) (s a b v : Nat),
      findEdgeW w.graph.edges (a, b) = some v →
      ∃ v2, findEdgeW (w.add_urls s urls).1.graph.edges (a, b) = some v2 ∧ v ≤ v2 := by
  induction urls with
  | nil => intro w s a b v h; exact ⟨v, h, Nat.le_refl v⟩
  | cons u rest ih =>
    intro w s a b v h
    rw [add_urls_cons]
    have hbase : findEdgeW (w.add_node u).1.graph.edges (a, b) = some v := by
      rw [add_node_edges]; exact h
    by_cases hk : (a, b) = (s, (w.add_node u).2)
    · have hP : findEdgeW (addOneUrl w s u).1.graph.edges (a, b) = some (v + 1) := by
        rw [addOneUrl_edges, hk, findEdgeW_update_self]
        rw [hk] at hbase
        rw [hbase]
        rfl
      rcases ih (addOneUrl w s u).1 s a b (v + 1) hP with ⟨v2, hv2, hle⟩
      exact ⟨v2, hv2, by omega⟩
    · have hP : findEdgeW (addOneUrl w s u).1.graph.edges (a, b) = some v := by
        rw [addOneUrl_edges, findEdgeW_update_other _ _ _ _ hk, hbase]
      exact ih (addOneUrl w s u).1 s a b v hP

/-- A well-formed store has no edge pointing at an unallocated node id. -/
theorem WF_findEdgeW_none (w : GeminiWeb) (a b : Nat) (hw : WF w)
    (hb2 : w.graph.nodes.length ≤ b) : findEdgeW w.graph.edges (a, b) = none := by
  cases h : findEdgeW w.graph.edges (a, b) with
  | none => rfl
  | some v =>
    have := hw.2.2 ((a, b), v) (findEdgeW_mem _ _ _ h)
    simp at this
    omega

/-- The central accounting lemma: one `add_urls` call adds to the weight of the
edge from the source to `t`'s node exactly the number of occurrences of `t` in
the target list. -/
theorem add_urls_edgeVal (urls : List Url) :
    ∀ (w : GeminiWeb) (s : Nat) (t : Url) (tid : Nat), WF w →
      lookupId (w.add_urls s urls).1.url_node_ids t = some tid →
      edgeVal (w.add_urls s urls).1 s tid = edgeVal w s tid + urls.count t := by
  induction urls with
  | nil =>
    intro w s t tid hw h
    simp only [List.count_nil]
    rfl
  | cons u rest ih =>
    intro w s t tid hw h
    rw [add_urls_cons] at h ⊢
    have hw1 : WF (w.add_node u).1 := WF_add_node w u hw
    have hwP : WF (addOneUrl w s u).1 := WF_addOneUrl w s u hw
    have ihres := ih (addOneUrl w s u).1 s t tid hwP h
    by_cases hut : u = t
    · subst hut
      have hself := add_node_lookup_self w u
      have hpers := lookupId_mono_add_urls rest (addOneUrl w s u).1 s u (w.add_node u).2 hself
      rw [h] at hpers
      have htid : tid = (w.add_node u).2 := by injection hpers
      have hP : edgeVal (addOneUrl w s u).1 s tid = edgeVal w s tid + 1 := by
        unfold edgeVal
        rw [htid, addOneUrl_edges, findEdgeW_update_self, add_node_edges]
        simp
      have hcount : (u :: rest).count u = rest.count u + 1 := by
        simp [List.count_cons]
      rw [ihres, hP, hcount]
      omega
    · have hcount : (u :: rest).count t = rest.count t := by
        have htu : t ≠ u := fun hh => hut hh.symm
        exact List.count_cons_of_ne htu rest
      have hne : tid ≠ (w.add_node u).2 := by
        cases hl : lookupId (w.add_node u).1.url_node_ids t with
        | some j =>
          have hpers := lookupId_mono_add_urls rest (addOneUrl w s u).1 s t j hl
          rw [h] at hpers
          have : tid = j := by injection hpers
          subst this
          intro hcontra
          exact hut (hw1.2.1 u t tid (hcontra ▸ add_node_lookup_self w u) hl)
        | none =>
          have hfresh := lookupId_none_fresh_add_urls rest (addOneUrl w s u).1 s t tid hl h
          have hnid := hw1.1 u (w.add_node u).2 (add_node_lookup_self w u)
          have hlen : (addOneUrl w s u).1.graph.nodes.length =
              (w.add_node u).1.graph.nodes.length := rfl
          intro hcontra
          rw [hcontra] at hfresh
          omega
      have hP : edgeVal (addOneUrl w s u).1 s tid = edgeVal w s tid := by
        unfold edgeVal
        rw [addOneUrl_edges,
          findEdgeW_update_other _ _ _ _ (fun hh => hne (congrArg Prod.snd hh)),
          add_node_edges]
      rw [ihres, hP, hcount]

/-- `add_urls` returns, in input order, the final id of each target. -/
theorem add_urls_ids (urls : List Url) :
    ∀ (w : GeminiWeb) (s : Nat),
      (w.add_urls s urls).2 =
        urls.map (fun u => (lookupId ((w.add_urls s urls).1).url_node_ids u).getD 0) := by
  induction urls with
  | nil => intro w s; rfl
  | cons u rest ih =>
    intro w s
    rw [add_urls_cons]
    simp only [List.map_cons, List.cons.injEq]
    constructor
    · rw [lookupId_mono_add_urls rest (addOneUrl w s u).1 s u (w.add_node u).2
        (add_node_lookup_self w u)]
      rfl
    · exact ih (addOneUrl w s u).1 s

/-- `runAddUrls` on a nonempty call list is one `add_urls` then the rest. -/
theorem runAddUrls_cons (w : GeminiWeb) (c : Nat × List Url) (calls : List (Nat × List Url)) :
    runAddUrls w (c :: calls) = runAddUrls (w.add_urls c.1 c.2).1 calls := rfl

/-- `countObs` on a nonempty call list. -/
theorem countObs_cons (c : Nat × List Url) (calls : List (Nat × List Url)) (s : Nat) (t : Url) :
    countObs (c :: calls) s t =
      (if c.1 = s then c.2.count t else 0) + countObs calls s t := by
  simp [countObs]

/-- A call sequence preserves existing id assignments. -/
theorem lookupId_mono_runAddUrls (calls : List (Nat × List Url)) :
    ∀ (w : GeminiWeb) (v : Url) (i : Nat),
      lookupId w.url_node_ids v = some i →
      lookupId (runAddUrls w calls).url_node_ids v = some i := by
  induction calls with
  | nil => intro w v i h; exact h
  | cons c calls ih =>
    intro w v i h
    rw [runAddUrls_cons]
    exact ih _ v i (lookupId_mono_add_urls c.2 w c.1 v i h)

/-- A call sequence does not shrink the node list. -/
theorem nodes_le_runAddUrls (calls : List (Nat × List Url)) :
    ∀ (w : GeminiWeb), w.graph.nodes.length ≤ (runAddUrls w calls).graph.nodes.length := by
  induction calls with
  | nil => intro w; exact Nat.le_refl _
  | cons c calls ih =>
    intro w
    rw [runAddUrls_cons]
    exact Nat.le_trans (nodes_le_add_urls c.2 w c.1) (ih _)

/-- A call sequence preserves well-formedness. -/
theorem WF_runAddUrls (calls : List (Nat × List Url)) :
    ∀ (w : GeminiWeb), WF w → WF (runAddUrls w calls) := by
  induction calls with
  | nil => intro w hw; exact hw
  | cons c calls ih =>
    intro w hw
    rw [runAddUrls_cons]
    exact ih _ (WF_add_urls c.2 w c.1 hw)

/-- An id assigned during a call sequence to a previously unseen url is at
least the previous node count. -/
theorem lookupId_none_fresh_runAddUrls (calls : List (Nat × List Url)) :
    ∀ (w : GeminiWeb) (t : Url) (tid : Nat),
      lookupId w.url_node_ids t = none →
      lookupId (runAddUrls w calls).url_node_ids t = some tid →
      w.graph.nodes.length ≤ tid := by
  induction calls with
  | nil =>
    intro w t tid h h'
    have h2 : lookupId w.url_node_ids t = some tid := h'
    rw [h] at h2
    cases h2
  | cons c calls ih =>
    intro w t tid h h'
    rw [runAddUrls_cons] at h'
    cases hl : lookupId (w.add_urls c.1 c.2).1.url_node_ids t with
    | some j =>
      have hpers := lookupId_mono_runAddUrls calls _ t j hl
      rw [h'] at hpers
      have : tid = j := by injection hpers
      rw [this]
      exact lookupId_none_fresh_add_urls c.2 w c.1 t j h hl
    | none =>
      exact Nat.le_trans (nodes_le_add_urls c.2 w c.1) (ih _ t tid hl h')

/-- A target observed at least once during a call sequence is registered at the
end of the sequence. -/
theorem lookup_some_of_countObs (calls : List (Nat × List Url)) :
    ∀ (w : GeminiWeb) (s : Nat) (t : Url), 1 ≤ countObs calls s t →
      ∃ tid, lookupId (runAddUrls w calls).url_node_ids t = some tid := by
  induction calls with
  | nil => intro w s t h; simp [countObs] at h
  | cons c calls ih =>
    intro w s t h
    rw [runAddUrls_cons]
    rw [countObs_cons] at h
    by_cases hc : 1 ≤ (if c.1 = s then c.2.count t else 0)
    · have hmem : t ∈ c.2 := by
        by_cases hcs : c.1 = s
        · rw [if_pos hcs] at hc
          exact List.count_pos_iff.mp hc
        · rw [if_neg hcs] at hc
          omega
      rcases lookup_some_of_mem_add_urls c.2 w c.1 t hmem with ⟨j, hj⟩
      exact ⟨j, lookupId_mono_runAddUrls calls _ t j hj⟩
    · exact ih _ s t (by omega)

/-- Accounting across a whole call sequence: the weight of the edge from `s` to
`t`'s node grows by exactly the number of observations of `t` from `s`. -/
theorem runAddUrls_edgeVal (calls : List (Nat × List Url)) :
    ∀ (w : GeminiWeb) (s : Nat) (t : Url) (tid : Nat), WF w →
      lookupId (runAddUrls w calls).url_node_ids t = some tid →
      edgeVal (runAddUrls w calls) s tid = edgeVal w s tid + countObs calls s t := by
  induction calls with
  | nil =>
    intro w s t tid hw h
    simp [countObs]
    rfl
  | cons c calls ih =>
    intro w s t tid hw h
    rw [runAddUrls_cons] at h ⊢
    have hw1 : WF (w.add_urls c.1 c.2).1 := WF_add_urls c.2 w c.1 hw
    have ihres := ih _ s t tid hw1 h
    rw [countObs_cons]
    by_cases hcs : c.1 = s
    · subst hcs
      cases hl : lookupId (w.add_urls c.1 c.2).1.url_node_ids t with
      | some j =>
        have hpers := lookupId_mono_runAddUrls calls _ t j hl
        rw [h] at hpers
        have htj : tid = j := by injection hpers
        subst htj
        have hstep := add_urls_edgeVal c.2 w c.1 t tid hw hl
        rw [ihres, hstep]
        simp
        omega
      | none =>
        have hmem : t ∉ c.2 := by
          intro hmem
          rcases lookup_some_of_mem_add_urls c.2 w c.1 t hmem with ⟨j, hj⟩
          rw [hj] at hl
          cases hl
        have hcount : c.2.count t = 0 := by
          rcases Nat.eq_zero_or_pos (c.2.count t) with h0 | h0
          · exact h0
          · exact absurd (List.count_pos_iff.mp h0) hmem
        have hfresh := lookupId_none_fresh_runAddUrls calls _ t tid hl h
        have hwnone : lookupId w.url_node_ids t = none := by
          cases hw0 : lookupId w.url_node_ids t with
          | none => rfl
          | some j =>
            have := lookupId_mono_add_urls c.2 w c.1 t j hw0
            rw [this] at hl
            cases hl
        have hv1 : edgeVal (w.add_urls c.1 c.2).1 c.1 tid = 0 := by
          unfold edgeVal
          rw [WF_findEdgeW_none _ _ _ hw1 hfresh]
          rfl
        have hv0 : edgeVal w c.1 tid = 0 := by
          unfold edgeVal
          rw [WF_findEdgeW_none _ _ _ hw
            (Nat.le_trans (nodes_le_add_urls c.2 w c.1) hfresh)]
          rfl
        rw [ihres, hv1, hv0, hcount]
        simp
    · have hv : edgeVal (w.add_urls c.1 c.2).1 s tid = edgeVal w s tid := by
        unfold edgeVal
        rw [add_urls_edges_other_source c.2 w c.1 s tid (fun hh => hcs hh.symm)]
      rw [ihres, hv, if_neg hcs]
      omega

/-! ## Claim C8: edge weight accounting -/

/-- C8: starting from an empty store, observing target `t` from source `s`
exactly `k ≥ 1` times in total across any sequence of `add_urls` calls leaves
the `(s, t)` edge present with weight exactly `k`; moreover `add_urls` never
decrements or removes an edge, and it returns the target node ids in input
order. -/
theorem add_urls_edge_weights :
    (∀ (calls : List (Nat × List Url)) (s : Nat) (t : Url),
        1 ≤ countObs calls s t →
        ∃ tid, lookupId (runAddUrls GeminiWeb.new calls).url_node_ids t = some tid ∧
          findEdgeW (runAddUrls GeminiWeb.new calls).graph.edges (s, tid) =
            some (countObs calls s t))
    ∧ (∀ (w : GeminiWeb) (s : Nat) (urls : List Url) (a b v : Nat),
        findEdgeW w.graph.edges (a, b) = some v →
        ∃ v2, findEdgeW ((w.add_urls s urls).1).graph.edges (a, b) = some v2 ∧ v ≤ v2)
    ∧ (∀ (w : GeminiWeb) (s : Nat) (urls : List Url),
        (w.add_urls s urls).2 =
          urls.map (fun u => (lookupId ((w.add_urls s urls).1).url_node_ids u).getD 0)) := by
  refine ⟨?_, ?_, ?_⟩
  · intro calls s t hk
    rcases lookup_some_of_countObs calls GeminiWeb.new s t hk with ⟨tid, hlook⟩
    refine ⟨tid, hlook, ?_⟩
    have hval := runAddUrls_edgeVal calls GeminiWeb.new s t tid WF_new hlook
    have hnew : edgeVal GeminiWeb.new s tid = 0 := rfl
    rw [hnew] at hval
    cases hfound : findEdgeW (runAddUrls GeminiWeb.new calls).graph.edges (s, tid) with
    | none =>
      unfold edgeVal at hval
      rw [hfound] at hval
      simp at hval
      omega
    | some v =>
      unfold edgeVal at hval
      rw [hfound] at hval
      simp at hval
      rw [hval]
  · intro w s urls a b v h
    exact add_urls_edge_mono urls w s a b v h
  · intro w s urls
    exact add_urls_ids urls w s

/-- Witness for C8: three observations of `urlB` from source 5 across two calls
leave the edge at weight 3; an existing edge of weight 2 survives an unrelated
call; and a two-target call returns the ids in input order. -/
theorem add_urls_edge_weights_witness :
    (∃ tid,
      lookupId (runAddUrls GeminiWeb.new [(5, [urlB, urlB]), (5, [urlB])]).url_node_ids urlB
          = some tid
      ∧ findEdgeW (runAddUrls GeminiWeb.new [(5, [urlB, urlB]), (5, [urlB])]).graph.edges
          (5, tid) = some (countObs [(5, [urlB, urlB]), (5, [urlB])] 5 urlB))
    ∧ (∃ v2,
      findEdgeW (((⟨⟨[urlA], [((0, 0), 2)]⟩, [], [(urlA, 0)], []⟩ : GeminiWeb).add_urls
          3 [urlB]).1).graph.edges (0, 0) = some v2 ∧ 2 ≤ v2)
    ∧ ((GeminiWeb.new.add_urls 0 [urlA, urlB]).2 =
        [urlA, urlB].map
          (fun u => (lookupId ((GeminiWeb.new.add_urls 0 [urlA, urlB]).1).url_node_ids u).getD 0)) :=
  ⟨add_urls_edge_weights.1 [(5, [urlB, urlB]), (5, [urlB])] 5 urlB (by decide),
   add_urls_edge_weights.2.1 ⟨⟨[urlA], [((0, 0), 2)]⟩, [], [(urlA, 0)], []⟩ 3 [urlB] 0 0 2
     (by decide),
   add_urls_edge_weights.2.2 GeminiWeb.new 0 [urlA, urlB]⟩

/-! ## Claim C1: the consumer filters the graph update too -/

/-- C1 counterexample: a link to an already-visited resource causes no graph
update.  `webAvisB` has `urlA` as node 0 and `urlB` already visited; processing
a response for `urlA` that links to `urlB` leaves the graph without any edge
and without a node for `urlB`, and enqueues nothing — although the claim
requires the (urlA, urlB) edge weight to become 1. -/
theorem consumer_visited_filter_counterexample :
    urlB ∈ webAvisB.visited
    ∧ respLinkB.gemini_urls = [urlB]
    ∧ (consumerStep webAvisB urlA 0 respLinkB).1.graph.edges = []
    ∧ (consumerStep webAvisB urlA 0 respLinkB).1.graph.nodes = [urlA]
    ∧ (consumerStep webAvisB urlA 0 respLinkB).2 = [] := by
  refine ⟨by decide, by decide, by decide, by decide, by decide⟩

/-- Occurrences survive filtering when the element satisfies the filter. -/
theorem count_filter_of_pos {α : Type} [DecidableEq α] (p : α → Bool) (l : List α) (v : α)
    (hp : p v = true) : (l.filter p).count v = l.count v := by
  induction l with
  | nil => rfl
  | cons x xs ih =>
    by_cases hx : p x = true
    · rw [List.filter_cons_of_pos hx]
      by_cases hvx : v = x
      · subst hvx
        simp [List.count_cons, ih]
      · rw [List.count_cons_of_ne hvx, List.count_cons_of_ne hvx]
        exact ih
    · rw [List.filter_cons_of_neg (by simpa using hx)]
      have hvx : v ≠ x := fun h => by rw [h] at hp; exact hx hp
      rw [List.count_cons_of_ne hvx]
      exact ih

/-- Zipping a list with its image under `f` contains `(v, f v)` for every
member `v`. -/
theorem mem_zip_map_self {α β : Type} (f : α → β) (l : List α) (v : α) (h : v ∈ l) :
    (v, f v) ∈ l.zip (l.map f) := by
  induction l with
  | nil => cases h
  | cons x xs ih =>
    rw [List.map_cons, List.zip_cons_cons]
    rcases List.mem_cons.mp h with h | h
    · subst h
      exact List.mem_cons_self _ _
    · exact List.mem_cons_of_mem _ (ih h)

/-- The first component of a zip member belongs to the left list. -/
theorem fst_mem_of_mem_zip {α β : Type} :
    ∀ (l : List α) (l2 : List β) (p : α × β), p ∈ l.zip l2 → p.1 ∈ l := by
  intro l
  induction l with
  | nil => intro l2 p h; cases h
  | cons x xs ih =>
    intro l2 p h
    cases l2 with
    | nil => cases h
    | cons y ys =>
      rw [List.zip_cons_cons] at h
      rcases List.mem_cons.mp h with h | h
      · rw [h]
        exact List.mem_cons_self x xs
      · exact List.mem_cons_of_mem x (ih ys p h)

/-- Membership in the visited set after the consumer's initial insert. -/
theorem mem_hsInsert (s : List Url) (u x : Url) :
    x ∈ (hsInsert s u).1 ↔ (x ∈ s ∨ x = u) := by
  unfold hsInsert
  by_cases hu : u ∈ s
  · rw [if_pos hu]
    constructor
    · intro hx; exact Or.inl hx
    · intro hx
      rcases hx with hx | hx
      · exact hx
      · rw [hx]; exact hu
  · rw [if_neg hu]
    simp

/-- C1 amended: the consumer filters the extracted links against the visited
set (after inserting the fetched resource itself) before both the graph update
and the frontier enqueue.  A link already visited (or equal to the fetched
resource) leaves the edge from the fetched node to it exactly as it was and is
never enqueued; a link not yet visited is registered, its edge weight grows by
its number of occurrences among the extracted links, and it is enqueued with
its node id. -/
theorem consumer_step_filtered_amended
    (web : GeminiWeb) (url : Url) (nid : Nat) (resp : GeminiResponse) (v : Url)
    (hw : WF web) :
    ((v ∈ web.visited ∨ v = url) →
      (∀ tid, lookupId web.url_node_ids v = some tid →
        findEdgeW (consumerStep web url nid resp).1.graph.edges (nid, tid) =
          findEdgeW web.graph.edges (nid, tid))
      ∧ (∀ p ∈ (consumerStep web url nid resp).2, p.1 ≠ v))
    ∧ (v ∈ resp.gemini_urls → v ∉ web.visited → v ≠ url →
      ∃ j, lookupId (consumerStep web url nid resp).1.url_node_ids v = some j
        ∧ edgeVal (consumerStep web url nid resp).1 nid j =
            edgeVal web nid j + resp.gemini_urls.count v
        ∧ (v, j) ∈ (consumerStep web url nid resp).2) := by
  have hstep : consumerStep web url nid resp =
      (({ web with visited := (hsInsert web.visited url).1 }.add_urls nid
          (resp.gemini_urls.filter
            (fun u => !(decide (u ∈ (hsInsert web.visited url).1))))).1,
        (resp.gemini_urls.filter
            (fun u => !(decide (u ∈ (hsInsert web.visited url).1)))).zip
          ({ web with visited := (hsInsert web.visited url).1 }.add_urls nid
            (resp.gemini_urls.filter
              (fun u => !(decide (u ∈ (hsInsert web.visited url).1))))).2) := rfl
  rw [hstep]
  set web1 : GeminiWeb := { web with visited := (hsInsert web.visited url).1 } with hweb1
  set kept : List Url :=
    resp.gemini_urls.filter (fun u => !(decide (u ∈ (hsInsert web.visited url).1)))
    with hkept
  have hw1 : WF web1 := hw
  constructor
  · intro hv
    have hvk : v ∉ kept := by
      intro hmem
      have := (List.mem_filter.mp hmem).2
      simp only [Bool.not_eq_true', decide_eq_false_iff_not] at this
      exact this ((mem_hsInsert web.visited url v).mpr hv)
    have hcount : kept.count v = 0 := by
      rcases Nat.eq_zero_or_pos (kept.count v) with h0 | h0
      · exact h0
      · exact absurd (List.count_pos_iff.mp h0) hvk
    constructor
    · intro tid htid
      have hlookafter := lookupId_mono_add_urls kept web1 nid v tid htid
      have hval := add_urls_edgeVal kept web1 nid v tid hw1 hlookafter
      rw [hcount] at hval
      cases hfound : findEdgeW web.graph.edges (nid, tid) with
      | some x =>
        rcases add_urls_edge_mono kept web1 nid nid tid x hfound with ⟨x2, hx2, hle⟩
        unfold edgeVal at hval
        rw [hx2] at hval
        have hfound1 : findEdgeW web1.graph.edges (nid, tid) = some x := hfound
        rw [hfound1] at hval
        simp at hval
        rw [hx2, hval]
      | none =>
        cases hafter : findEdgeW (web1.add_urls nid kept).1.graph.edges (nid, tid) with
        | none => rfl
        | some y =>
          unfold edgeVal at hval
          have hfound1 : findEdgeW web1.graph.edges (nid, tid) = none := hfound
          rw [hafter, hfound1] at hval
          simp at hval
          have hwf2 : WF (web1.add_urls nid kept).1 := WF_add_urls kept web1 nid hw1
          have := (hwf2.2.2 ((nid, tid), y) (findEdgeW_mem _ _ _ hafter)).2
          omega
    · intro p hp hpv
      have hfst : p.1 ∈ kept := fst_mem_of_mem_zip kept _ p hp
      rw [hpv] at hfst
      exact hvk hfst
  · intro hvm hvnv hvurl
    have hvk : v ∈ kept := by
      rw [hkept]
      refine List.mem_filter.mpr ⟨hvm, ?_⟩
      simp only [Bool.not_eq_true', decide_eq_false_iff_not]
      intro hcontra
      rcases (mem_hsInsert web.visited url v).mp hcontra with h | h
      · exact hvnv h
      · exact hvurl h
    rcases lookup_some_of_mem_add_urls kept web1 nid v hvk with ⟨j, hj⟩
    refine ⟨j, hj, ?_, ?_⟩
    · have hval := add_urls_edgeVal kept web1 nid v j hw1 hj
      have hcount : kept.count v = resp.gemini_urls.count v := by
        rw [hkept]
        refine count_filter_of_pos _ _ v ?_
        simp only [Bool.not_eq_true', decide_eq_false_iff_not]
        intro hcontra
        rcases (mem_hsInsert web.visited url v).mp hcontra with h | h
        · exact hvnv h
        · exact hvurl h
      rw [hval, hcount]
      rfl
    · have hids := add_urls_ids kept web1 nid
      have hjv : ((lookupId ((web1.add_urls nid kept).1).url_node_ids v).getD 0) = j := by
        rw [hj]
        rfl
      have hmem := mem_zip_map_self
        (fun u => (lookupId ((web1.add_urls nid kept).1).url_node_ids u).getD 0) kept v hvk
      have hmem2 : (v, j) ∈ kept.zip
          (kept.map (fun u => (lookupId ((web1.add_urls nid kept).1).url_node_ids u).getD 0)) := by
        rw [← hjv]
        exact hmem
      rw [hids]
      exact hmem2

/-- Witness for C1 amended: in `webAvisB` (node `urlA`, visited `urlB`),
processing the response linking to `urlB`. -/
theorem consumer_step_filtered_amended_witness :
    ((urlB ∈ webAvisB.visited ∨ urlB = urlA)
      ∧ (∀ p ∈ (consumerStep webAvisB urlA 0 respLinkB).2, p.1 ≠ urlB))
    ∧ (∀ tid, lookupId webAvisB.url_node_ids urlB = some tid →
        findEdgeW (consumerStep webAvisB urlA 0 respLinkB).1.graph.edges (0, tid) =
          findEdgeW webAvisB.graph.edges (0, tid)) :=
  ⟨⟨Or.inl (by decide),
    ((consumer_step_filtered_amended webAvisB urlA 0 respLinkB urlB
      (WF_add_node GeminiWeb.new urlA WF_new)).1 (Or.inl (by decide))).2⟩,
   ((consumer_step_filtered_amended webAvisB urlA 0 respLinkB urlB
      (WF_add_node GeminiWeb.new urlA WF_new)).1 (Or.inl (by decide))).1⟩

/-! ## Claim C9: unvisited frontier -/

/-- C9 counterexample: `try_visit` on a resource that was never discovered
marks it visited but shrinks the unvisited frontier by zero, although the
resource was not previously visited — the claim's "exactly one iff not
previously visited" fails for undiscovered resources. -/
theorem mark_visited_shrink_counterexample :
    urlB ∉ webA.visited
    ∧ (webA.try_visit urlB).1.unvisited.length = webA.unvisited.length := by
  refine ⟨by decide, by decide⟩

/-- Registration in the id map is membership among the keys. -/
theorem lookupId_isSome_iff_mem_keys (m : List (Url × Nat)) (u : Url) :
    (∃ i, lookupId m u = some i) ↔ u ∈ m.map Prod.fst := by
  induction m with
  | nil => simp [lookupId]
  | cons p rest ih =>
    simp only [lookupId, List.map_cons, List.mem_cons]
    by_cases h : p.1 = u
    · simp [h, eq_comm]
    · have h2 : ¬ (u = p.1) := fun hh => h hh.symm
      simp [h, h2, ih]

/-- Marking a resource that is not an unvisited key leaves the unvisited
filter unchanged. -/
theorem filter_append_of_not (keys vis : List Url) (r : Url) (h : r ∉ keys ∨ r ∈ vis) :
    keys.filter (fun u => !(decide (u ∈ vis ++ [r]))) =
      keys.filter (fun u => !(decide (u ∈ vis))) := by
  refine List.filter_congr ?_
  intro u hu
  rcases h with h | h
  · have hur : ¬ (u = r) := fun hh => h (hh ▸ hu)
    by_cases hv : u ∈ vis <;> simp [List.mem_append, hv, hur]
  · by_cases hv : u ∈ vis
    · simp [List.mem_append, hv]
    · have hur : ¬ (u = r) := fun hh => hv (hh ▸ h)
      simp [List.mem_append, hv, hur]

/-- Marking an unvisited key removes exactly one entry from the unvisited
filter of a duplicate-free key list. -/
theorem length_filter_append_of_mem (keys : List Url) :
    keys.Nodup → ∀ (vis : List Url) (r : Url), r ∈ keys → r ∉ vis →
    (keys.filter (fun u => !(decide (u ∈ vis)))).length =
      (keys.filter (fun u => !(decide (u ∈ vis ++ [r])))).length + 1 := by
  induction keys with
  | nil => intro _ vis r hmem; cases hmem
  | cons x xs ih =>
    intro hnd vis r hmem hnv
    obtain ⟨hx, hxs⟩ := List.nodup_cons.mp hnd
    by_cases hxr : x = r
    · subst hxr
      have h1 : (x :: xs).filter (fun u => !(decide (u ∈ vis))) =
          x :: xs.filter (fun u => !(decide (u ∈ vis))) := by
        simp [List.filter_cons, hnv]
      have h2 : (x :: xs).filter (fun u => !(decide (u ∈ vis ++ [x]))) =
          xs.filter (fun u => !(decide (u ∈ vis ++ [x]))) := by
        simp [List.filter_cons, List.mem_append]
      rw [h1, h2, filter_append_of_not xs vis x (Or.inl hx)]
      simp
    · have hmem2 : r ∈ xs := by
        rcases List.mem_cons.mp hmem with h | h
        · exact absurd h.symm hxr
        · exact h
      have hxmem : (x ∈ vis ++ [r]) = (x ∈ vis) := by
        simp [List.mem_append, hxr]
      by_cases hxv : x ∈ vis
      · have h1 : (x :: xs).filter (fun u => !(decide (u ∈ vis))) =
            xs.filter (fun u => !(decide (u ∈ vis))) := by
          simp [List.filter_cons, hxv]
        have h2 : (x :: xs).filter (fun u => !(decide (u ∈ vis ++ [r]))) =
            xs.filter (fun u => !(decide (u ∈ vis ++ [r]))) := by
          simp [List.filter_cons, hxmem, hxv]
        rw [h1, h2]
        exact ih hxs vis r hmem2 hnv
      · have h1 : (x :: xs).filter (fun u => !(decide (u ∈ vis))) =
            x :: xs.filter (fun u => !(decide (u ∈ vis))) := by
          simp [List.filter_cons, hxv]
        have h2 : (x :: xs).filter (fun u => !(decide (u ∈ vis ++ [r]))) =
            x :: xs.filter (fun u => !(decide (u ∈ vis ++ [r]))) := by
          simp [List.filter_cons, hxmem, hxv, hxr]
        rw [h1, h2]
        simp only [List.length_cons]
        rw [ih hxs vis r hmem2 hnv]

/-- C9 amended: `unvisited` always equals the registered resources minus the
visited set, and `try_visit r` shrinks it by at most one — by exactly one if
and only if `r` is a registered (discovered) resource that was not previously
visited.  (For an undiscovered `r` the set is unchanged even though `r` was
unvisited.) -/
theorem unvisited_frontier_amended (w : GeminiWeb)
    (hnd : (w.url_node_ids.map Prod.fst).Nodup) (r : Url) :
    (∀ u, u ∈ w.unvisited ↔ ((∃ i, lookupId w.url_node_ids u = some i) ∧ u ∉ w.visited))
    ∧ (w.try_visit r).1.unvisited.length ≤ w.unvisited.length
    ∧ w.unvisited.length ≤ (w.try_visit r).1.unvisited.length + 1
    ∧ ((w.try_visit r).1.unvisited.length + 1 = w.unvisited.length ↔
        (r ∈ w.url_node_ids.map Prod.fst ∧ r ∉ w.visited)) := by
  have hchar : ∀ u, u ∈ w.unvisited ↔
      ((∃ i, lookupId w.url_node_ids u = some i) ∧ u ∉ w.visited) := by
    intro u
    unfold GeminiWeb.unvisited
    simp [List.mem_filter, lookupId_isSome_iff_mem_keys]
  by_cases hrv : r ∈ w.visited
  · have heq : (w.try_visit r).1 = w := by
      simp [GeminiWeb.try_visit, hsInsert, hrv]
    rw [heq]
    refine ⟨hchar, Nat.le_refl _, by omega, ?_⟩
    constructor
    · intro h; omega
    · intro h; exact absurd hrv h.2
  · have hvis : (w.try_visit r).1.visited = w.visited ++ [r] := by
      simp [GeminiWeb.try_visit, hsInsert, hrv]
    have hunv : (w.try_visit r).1.unvisited =
        (w.url_node_ids.map Prod.fst).filter
          (fun u => !(decide (u ∈ w.visited ++ [r]))) := by
      unfold GeminiWeb.unvisited
      rw [hvis]
      rfl
    by_cases hrk : r ∈ w.url_node_ids.map Prod.fst
    · have hlen := length_filter_append_of_mem (w.url_node_ids.map Prod.fst) hnd
        w.visited r hrk hrv
      have hungoal : w.unvisited.length = (w.try_visit r).1.unvisited.length + 1 := by
        rw [hunv]
        unfold GeminiWeb.unvisited
        exact hlen
      refine ⟨hchar, by omega, by omega, ?_⟩
      constructor
      · intro _
        exact ⟨hrk, hrv⟩
      · intro _
        omega
    · have hfeq := filter_append_of_not (w.url_node_ids.map Prod.fst) w.visited r
        (Or.inl hrk)
      have hungoal : (w.try_visit r).1.unvisited = w.unvisited := by
        rw [hunv]
        unfold GeminiWeb.unvisited
        exact hfeq
      refine ⟨hchar, by rw [hungoal], by rw [hungoal]; omega, ?_⟩
      constructor
      · intro h
        rw [hungoal] at h
        omega
      · intro h
        exact absurd h.1 hrk

/-- Witness for C9 amended at a concrete store: one discovered unvisited node,
marking it shrinks the frontier by exactly one. -/
theorem unvisited_frontier_amended_witness :
    ((webA.try_visit urlA).1.unvisited.length + 1 = webA.unvisited.length ↔
      (urlA ∈ webA.url_node_ids.map Prod.fst ∧ urlA ∉ webA.visited))
    ∧ (webA.try_visit urlA).1.unvisited.length ≤ webA.unvisited.length :=
  ⟨(unvisited_frontier_amended webA (by decide) urlA).2.2.2,
   (unvisited_frontier_amended webA (by decide) urlA).2.1⟩

/-! ## Claim C3: a malformed link target aborts the whole document parse -/

/-- C3 counterexample: one link line with the non-relative parse failure
`http://` (empty host) makes the whole document parse fail, instead of the
claim's drop-the-line-and-continue. -/
theorem link_failure_counterexample :
    urlParse "http://" = .error .emptyHost
    ∧ UrlError.emptyHost ≠ UrlError.relativeUrlWithoutBase
    ∧ GeminiText.new "hello\n=> http://\nworld" urlA = .error .emptyHost := by
  refine ⟨by decide, by decide, by decide⟩

/-- Folding an effectful step over an appended list runs the two parts in
sequence. -/
theorem foldlM_except_append {α σ ε : Type} (f : σ → α → Except ε σ) (l1 l2 : List α) :
    ∀ (init : σ),
      (l1 ++ l2).foldlM f init =
        (l1.foldlM f init).bind (fun s => l2.foldlM f s) := by
  induction l1 with
  | nil =>
    intro init
    rfl
  | cons a l1 ih =>
    intro init
    simp only [List.cons_append, List.foldlM_cons]
    cases h : f init a with
    | error e => rfl
    | ok s => exact ih s

/-- C3 amended: in the document parser `GeminiText::new`, a link line whose
target fails to parse (necessarily for a non-relative reason, since relative
references are resolved against the base) makes the WHOLE body parse return
that error; the drop-the-line-and-continue behaviour belongs only to the
separate extractor `parse_body_urls`. -/
theorem link_parse_failure_amended (base : Url) (body : String) (pre post : List String)
    (l : String) (acc : Bool × List GeminiTextStatement) (e : UrlError)
    (hlines : rustLines body = pre ++ l :: post)
    (hpre : pre.foldlM (geminiTextStep base) (false, ([] : List GeminiTextStatement)) = .ok acc)
    (hnopre : acc.1 = false)
    (hfence : strTrim l ≠ "```")
    (hlink : strStartsWith (strTrim l) "=>" = true)
    (hfail : urlParseWithBase base (linkParts (strDropN (strTrim l) 2)).1 = .error e) :
    GeminiText.new body base = .error e := by
  have hstep : geminiTextStep base acc l = .error e := by
    simp [geminiTextStep, hfence, hnopre, hlink, hfail]
  unfold GeminiText.new
  rw [hlines, foldlM_except_append, hpre]
  rw [show ((Except.ok acc).bind fun s =>
      (l :: post).foldlM (geminiTextStep base) s) =
      (l :: post).foldlM (geminiTextStep base) acc from rfl]
  rw [List.foldlM_cons, hstep]
  rfl

/-- Witness for C3 amended: the concrete three-line body whose middle link
target `http://` fails with the empty-host error. -/
theorem link_parse_failure_amended_witness :
    (rustLines "hello\n=> http://\nworld" = ["hello"] ++ "=> http://" :: ["world"]
      ∧ ["hello"].foldlM (geminiTextStep urlA) (false, ([] : List GeminiTextStatement)) =
          .ok (false, [.Line "hello"])
      ∧ strTrim "=> http://" ≠ "```"
      ∧ strStartsWith (strTrim "=> http://") "=>" = true
      ∧ urlParseWithBase urlA (linkParts (strDropN (strTrim "=> http://") 2)).1 =
          .error .emptyHost)
    ∧ GeminiText.new "hello\n=> http://\nworld" urlA = .error .emptyHost :=
  ⟨⟨by decide, by decide, by decide, by decide, by decide⟩,
   link_parse_failure_amended urlA "hello\n=> http://\nworld" ["hello"] ["world"]
     "=> http://" (false, [.Line "hello"]) .emptyHost
     (by decide) (by decide) rfl (by decide) (by decide) (by decide)⟩
